import Mathlib

/-
Verification of the Monte Carlo permutation engine
(`framework/performance/monte_carlo_measures.py`) and the Monte Carlo
significance test (`framework/significance_testing/monte_carlo_significance_test.py`)
of the TradingSystemFramework repository.

The Python code is shallowly embedded: prices and returns are exact real
numbers, pandas/polars tables become lists of bars plus an index list and a
list of extra (non-OHLC) columns, and Python exceptions become an `Except`
error type whose constructors are the exception classes the code can actually
raise (`ValueError`, `AssertionError`, `IndexError`).  NumPy's globally seeded
random generator is modelled by an explicit integer state threaded through the
computation: `np.random.seed(n)` deterministically resets the state, and each
random draw advances it.  The concrete generator below is a linear
congruential stream; the properties proved here depend only on the facts that
seeding is deterministic and that every shuffle it produces is a permutation
of its input, both of which hold for NumPy's Mersenne Twister as well.
-/

namespace TSF

/-- Python exceptions that the embedded code can raise. -/
inductive PyError where
  | valueError (msg : String)
  | assertionError (msg : String)
  | indexError (msg : String)
  deriving DecidableEq

/-! ## Model of NumPy's globally seeded random generator -/

/-- The state of the global random generator. -/
abbrev RNG := ℕ

/-- One draw: advance the state and emit a pseudo-random natural number. -/
def rngNext (s : RNG) : ℕ × RNG :=
  let s' := (6364136223846793005 * s + 1442695040888963407) % 2 ^ 64
  (s' / 2 ^ 33, s')

/-- `np.random.seed(n)`: deterministically reset the global state. -/
def npSeed (n : ℕ) : RNG := n % 2 ^ 32

/-- `np.random.seed(seed)` with an optional seed: `None` leaves the ambient
entropy state in place, an integer resets the state deterministically. -/
def npSeedOpt : Option ℕ → RNG → RNG
  | some n, _ => npSeed n
  | none, g => g

/-- Sampling without replacement (`Series.sample(frac=1.0)`,
`np.random.permutation`): repeatedly draw an index and extract that element.
The first argument is fuel, always instantiated with the list length. -/
def shuffleAux {α : Type} [Inhabited α] : ℕ → List α → RNG → List α × RNG
  | 0, _, g => ([], g)
  | n + 1, l, g =>
      let d := rngNext g
      let j := d.1 % l.length
      let rest := shuffleAux n (l.eraseIdx j) d.2
      (l.getD j default :: rest.1, rest.2)

/-- A full random shuffle of a list. -/
def shuffle {α : Type} [Inhabited α] (l : List α) (g : RNG) : List α × RNG :=
  shuffleAux l.length l g

/-- `np.random.permutation(np.arange(n))`: a random permutation of `0..n-1`. -/
def randPermIdx (n : ℕ) (g : RNG) : List ℕ × RNG :=
  shuffle (List.range n) g

/-- Any list is a permutation of the chosen element consed onto the remainder. -/
theorem perm_getD_cons_eraseIdx {α : Type} [Inhabited α] :
    ∀ (l : List α) (j : ℕ), j < l.length →
      l.Perm (l.getD j default :: l.eraseIdx j) := by
  intro l
  induction l with
  | nil => intro j h; simp at h
  | cons x xs ih =>
      intro j hj
      cases j with
      | zero => simp
      | succ j =>
          have hj' : j < xs.length := by simpa using hj
          have h1 : (x :: xs).Perm (x :: (xs.getD j default :: xs.eraseIdx j)) :=
            List.Perm.cons x (ih j hj')
          refine h1.trans ?_
          simp only [List.getD_cons_succ, List.eraseIdx_cons_succ]
          exact List.Perm.swap _ _ _

/-- The shuffle returns a permutation of its input. -/
theorem shuffleAux_perm {α : Type} [Inhabited α] :
    ∀ (n : ℕ) (l : List α) (g : RNG), n = l.length →
      (shuffleAux n l g).1.Perm l := by
  intro n
  induction n with
  | zero =>
      intro l g h
      cases l with
      | nil => simp [shuffleAux]
      | cons x xs => simp at h
  | succ n ih =>
      intro l g h
      have hlen : 0 < l.length := by omega
      have hj : (rngNext g).1 % l.length < l.length := Nat.mod_lt _ hlen
      have herase : n = (l.eraseIdx ((rngNext g).1 % l.length)).length := by
        rw [List.length_eraseIdx_of_lt hj]; omega
      have hrec := ih (l.eraseIdx ((rngNext g).1 % l.length)) (rngNext g).2 herase
      have : (shuffleAux (n + 1) l g).1 =
          l.getD ((rngNext g).1 % l.length) default ::
            (shuffleAux n (l.eraseIdx ((rngNext g).1 % l.length)) (rngNext g).2).1 := rfl
      rw [this]
      exact (List.Perm.cons _ hrec).trans (perm_getD_cons_eraseIdx l _ hj).symm

theorem shuffle_perm {α : Type} [Inhabited α] (l : List α) (g : RNG) :
    (shuffle l g).1.Perm l :=
  shuffleAux_perm l.length l g rfl

theorem randPermIdx_perm (n : ℕ) (g : RNG) :
    (randPermIdx n g).1.Perm (List.range n) :=
  shuffle_perm (List.range n) g

theorem randPermIdx_length (n : ℕ) (g : RNG) :
    (randPermIdx n g).1.length = n := by
  have := (randPermIdx_perm n g).length_eq
  simpa using this

/-! ## Monte Carlo significance test
(`MonteCarloSignificanceTest` in
`framework/significance_testing/monte_carlo_significance_test.py`).
Returns series are lists of exact reals; the pandas index bookkeeping of
`test` (reset and restore of the index) has no observable effect on values
and is dropped. -/

/-- `returns.mean()`. -/
noncomputable def mean (l : List ℝ) : ℝ := l.sum / l.length

/-- `returns.std()` (pandas sample standard deviation, `ddof=1`). -/
noncomputable def sampleStd (l : List ℝ) : ℝ :=
  Real.sqrt ((l.map (fun x => (x - mean l) ^ 2)).sum / ((l.length : ℝ) - 1))

/-- `np.std` (population standard deviation, `ddof=0`), used for the trial
metric statistics. -/
noncomputable def popStd (l : List ℝ) : ℝ :=
  Real.sqrt ((l.map (fun x => (x - mean l) ^ 2)).sum / l.length)

/-- `(1 + returns).cumprod()` with running accumulator. -/
noncomputable def cumprodAux (acc : ℝ) : List ℝ → List ℝ
  | [] => []
  | x :: xs => (acc * x) :: cumprodAux (acc * x) xs

/-- `expanding().max()` after the first element. -/
noncomputable def scanMax (acc : ℝ) : List ℝ → List ℝ
  | [] => []
  | x :: xs => max acc x :: scanMax (max acc x) xs

/-- `cumulative.expanding().max()`. -/
noncomputable def runMax : List ℝ → List ℝ
  | [] => []
  | x :: xs => x :: scanMax x xs

/-- `.min()` of a series (0 only in the empty case, which pandas maps to NaN
and which no claim exercises). -/
noncomputable def listMin : List ℝ → ℝ
  | [] => 0
  | x :: xs => xs.foldl min x

/-- `MonteCarloSignificanceTest._calculate_metric`, `max_drawdown` branch:
running peak of the compounded cumulative return, most negative fractional
decline. -/
noncomputable def maxDrawdown (returns : List ℝ) : ℝ :=
  let cumulative := cumprodAux 1 (returns.map (fun r => 1 + r))
  let running := runMax cumulative
  listMin ((cumulative.zip running).map (fun p => (p.1 - p.2) / p.2))

/-- The metric names `_calculate_metric` recognises; any other name raises
`ValueError`. -/
def metricNames : List String := ["sharpe", "profit_factor", "total_return", "max_drawdown"]

/-- The metric names the p-value computation treats as higher-is-better. -/
def higherBetter : List String := ["sharpe", "profit_factor", "total_return"]

open Classical in
/-- `MonteCarloSignificanceTest._calculate_metric`, value computed for a known
metric name (the unknown-name `ValueError` is handled by the caller model
`MCtest`; this function returns junk 0 there). -/
noncomputable def calcMetricVal (returns : List ℝ) (metric : String) : ℝ :=
  if metric = "sharpe" then
    if sampleStd returns = 0 then 0
    else mean returns / sampleStd returns * Real.sqrt 252
  else if metric = "profit_factor" then
    let winning := (returns.filter (fun r => decide (0 < r))).sum
    let losing := ((returns.filter (fun r => decide (r < 0))).map (fun r => |r|)).sum
    if 0 < losing then winning / losing else 0
  else if metric = "total_return" then returns.sum
  else if metric = "max_drawdown" then maxDrawdown returns
  else 0

open Classical in
/-- Number of trial metrics at least as large as the actual metric
(`np.sum(permuted_metrics >= actual_metric)` inside `np.mean`). -/
noncomputable def countGE (l : List ℝ) (a : ℝ) : ℕ :=
  l.countP (fun x => decide (a ≤ x))

open Classical in
/-- Number of trial metrics at most as large as the actual metric. -/
noncomputable def countLE (l : List ℝ) (a : ℝ) : ℕ :=
  l.countP (fun x => decide (x ≤ a))

/-- The trial loop of `test`: `n` successive in-place shuffles
(`strategy_returns.sample(frac=1.0)`) of the returns, threading the global
RNG state. -/
def mcShuffles : ℕ → List ℝ → RNG → List (List ℝ) × RNG
  | 0, _, g => ([], g)
  | n + 1, rs, g =>
      let d := shuffle rs g
      let rest := mcShuffles n rs d.2
      (d.1 :: rest.1, rest.2)

/-- The list of trial metrics computed by `test`. -/
noncomputable def trialMetrics (g : RNG) (rs : List ℝ) (metric : String) (n : ℕ) : List ℝ :=
  (mcShuffles n rs g).1.map (fun t => calcMetricVal t metric)

/-- The result record returned by `MonteCarloSignificanceTest.test`. -/
structure TestResult where
  p_value : ℝ
  is_significant : Prop
  actual_metric : ℝ
  mean_random_metric : ℝ
  std_random_metric : ℝ
  z_score : ℝ
  confidence_level : ℝ
  n_permutations : ℕ
  metric_tested : String
  test_name : String

open Classical in
/-- `MonteCarloSignificanceTest.test`: compute the actual metric, generate
`n` shuffled trials, and compare.  `p_value` is `np.mean` of the boolean
comparison array, i.e. the comparison count divided by the number of trials;
an unknown metric name surfaces the `ValueError` raised by
`_calculate_metric` on the actual returns. -/
noncomputable def MCtest (g : RNG) (rs : List ℝ) (metric : String) (n : ℕ)
    (conf : ℝ) : Except PyError TestResult :=
  if metric ∈ metricNames then
    let actual := calcMetricVal rs metric
    let tms := trialMetrics g rs metric n
    let p : ℝ :=
      if metric ∈ higherBetter then (countGE tms actual : ℝ) / n
      else (countLE tms actual : ℝ) / n
    let mu := mean tms
    let sd := popStd tms
    .ok
      { p_value := p
        is_significant := p < conf
        actual_metric := actual
        mean_random_metric := mu
        std_random_metric := sd
        z_score := if 0 < sd then (actual - mu) / sd else 0
        confidence_level := conf
        n_permutations := n
        metric_tested := metric
        test_name := "Monte Carlo Significance Test" }
  else .error (.valueError ("Unknown metric: " ++ metric))

/-! ## Lemmas about the significance test -/

theorem mcShuffles_length (n : ℕ) (rs : List ℝ) (g : RNG) :
    (mcShuffles n rs g).1.length = n := by
  induction n generalizing g with
  | zero => rfl
  | succ n ih => simp [mcShuffles, ih]

theorem mcShuffles_mem {n : ℕ} {rs l : List ℝ} {g : RNG}
    (h : l ∈ (mcShuffles n rs g).1) : l.Perm rs := by
  induction n generalizing g with
  | zero => simp [mcShuffles] at h
  | succ n ih =>
      simp only [mcShuffles, List.mem_cons] at h
      rcases h with h | h
      · exact h ▸ shuffle_perm rs g
      · exact ih h

theorem trialMetrics_length (g : RNG) (rs : List ℝ) (metric : String) (n : ℕ) :
    (trialMetrics g rs metric n).length = n := by
  unfold trialMetrics
  rw [List.length_map, mcShuffles_length]

theorem mean_perm {a b : List ℝ} (h : a.Perm b) : mean a = mean b := by
  unfold mean
  rw [h.sum_eq, h.length_eq]

theorem sampleStd_perm {a b : List ℝ} (h : a.Perm b) : sampleStd a = sampleStd b := by
  unfold sampleStd
  rw [mean_perm h, (h.map fun x => (x - mean b) ^ 2).sum_eq, h.length_eq]

theorem calcMetricVal_sharpe_perm {a b : List ℝ} (h : a.Perm b) :
    calcMetricVal a "sharpe" = calcMetricVal b "sharpe" := by
  unfold calcMetricVal
  rw [if_pos rfl, if_pos rfl, sampleStd_perm h, mean_perm h]

theorem mcTest_p_value (g : RNG) (rs : List ℝ) (metric : String) (n : ℕ)
    (conf : ℝ) (h1 : metric ∈ metricNames) :
    Except.map TestResult.p_value (MCtest g rs metric n conf) =
      .ok (if metric ∈ higherBetter then
            (countGE (trialMetrics g rs metric n) (calcMetricVal rs metric) : ℝ) / n
          else
            (countLE (trialMetrics g rs metric n) (calcMetricVal rs metric) : ℝ) / n) := by
  unfold MCtest
  rw [if_pos h1]
  rfl

theorem mcTest_actual_metric (g : RNG) (rs : List ℝ) (metric : String) (n : ℕ)
    (conf : ℝ) (h1 : metric ∈ metricNames) :
    Except.map TestResult.actual_metric (MCtest g rs metric n conf) =
      .ok (calcMetricVal rs metric) := by
  unfold MCtest
  rw [if_pos h1]
  rfl

/-- Shared core of C2: because every trial of `test` is a shuffle of the very
returns being tested and the Sharpe ratio is invariant under reordering,
every trial metric ties with the actual metric, every tie counts into the
`>=` bucket, and the p-value is `n/n = 1` for any nonzero trial count. -/
theorem mc_sharpe_pvalue_one (g : RNG) (rs : List ℝ) (n : ℕ) (conf : ℝ)
    (hn : n ≠ 0) :
    Except.map TestResult.p_value (MCtest g rs "sharpe" n conf) = .ok 1 := by
  rw [mcTest_p_value g rs "sharpe" n conf (by decide), if_pos (by decide)]
  have hall : ∀ x ∈ trialMetrics g rs "sharpe" n, calcMetricVal rs "sharpe" ≤ x := by
    intro x hx
    unfold trialMetrics at hx
    obtain ⟨t, ht, rfl⟩ := List.mem_map.1 hx
    exact le_of_eq (calcMetricVal_sharpe_perm (mcShuffles_mem ht)).symm
  have hcount : countGE (trialMetrics g rs "sharpe" n) (calcMetricVal rs "sharpe") =
      (trialMetrics g rs "sharpe" n).length := by
    unfold countGE
    rw [List.countP_eq_length]
    intro a ha
    simpa using hall a ha
  rw [hcount, trialMetrics_length]
  rw [div_self (by exact_mod_cast hn)]

/-! ## Claims C1, C2, C3 -/

/-- Claim C1: for every returns sequence, metric kind, and number of trials,
`MonteCarloSignificanceTest.test` computes the empirical p-value as the count
of trial metrics at least as large as the actual metric divided by the number
of trials when the metric is one of `sharpe`, `profit_factor`, `total_return`
(higher is better), and as the count with metric at most the actual metric
divided by the number of trials when the metric is `max_drawdown` (lower is
better).  The trial-metric list has exactly `n` entries, so the quotient is
the stated fraction. -/
theorem c1_pvalue_rule (g : RNG) (rs : List ℝ) (metric : String) (n : ℕ)
    (conf : ℝ) :
    (metric = "sharpe" ∨ metric = "profit_factor" ∨ metric = "total_return" →
      Except.map TestResult.p_value (MCtest g rs metric n conf) =
        .ok ((countGE (trialMetrics g rs metric n) (calcMetricVal rs metric) : ℝ) / n) ∧
      (trialMetrics g rs metric n).length = n) ∧
    (metric = "max_drawdown" →
      Except.map TestResult.p_value (MCtest g rs metric n conf) =
        .ok ((countLE (trialMetrics g rs metric n) (calcMetricVal rs metric) : ℝ) / n) ∧
      (trialMetrics g rs metric n).length = n) := by
  constructor
  · rintro (rfl | rfl | rfl) <;>
      exact ⟨by rw [mcTest_p_value _ _ _ _ _ (by decide), if_pos (by decide)],
        trialMetrics_length _ _ _ _⟩
  · rintro rfl
    exact ⟨by rw [mcTest_p_value _ _ _ _ _ (by decide), if_neg (by decide)],
      trialMetrics_length _ _ _ _⟩

theorem c1_pvalue_rule_witness :
    (Except.map TestResult.p_value (MCtest 0 [1, 2] "sharpe" 3 (5 / 100)) =
        .ok ((countGE (trialMetrics 0 [1, 2] "sharpe" 3)
          (calcMetricVal [1, 2] "sharpe") : ℝ) / 3) ∧
      (trialMetrics 0 [1, 2] "sharpe" 3).length = 3) ∧
    (Except.map TestResult.p_value (MCtest 0 [1, 2] "max_drawdown" 3 (5 / 100)) =
        .ok ((countLE (trialMetrics 0 [1, 2] "max_drawdown" 3)
          (calcMetricVal [1, 2] "max_drawdown") : ℝ) / 3) ∧
      (trialMetrics 0 [1, 2] "max_drawdown" 3).length = 3) :=
  ⟨(c1_pvalue_rule 0 [1, 2] "sharpe" 3 (5 / 100)).1 (Or.inl rfl),
    (c1_pvalue_rule 0 [1, 2] "max_drawdown" 3 (5 / 100)).2 rfl⟩

/-- Claim C2 as frozen is false on the code: with a strictly positive
increasing returns series, shuffle trials of those same values, metric
`sharpe` and 200 trials, the p-value is 1, not 1/200 — the Sharpe ratio is
order-invariant, so every trial ties with the actual metric and every tie
counts into the `>=` bucket. -/
theorem c2_counterexample :
    Except.map TestResult.p_value
        (MCtest 0 [(1 : ℝ) / 100, 2 / 100, 3 / 100] "sharpe" 200 (5 / 100)) ≠
      .ok ((1 : ℝ) / 200) := by
  intro h
  rw [mc_sharpe_pvalue_one 0 [(1 : ℝ) / 100, 2 / 100, 3 / 100] 200 (5 / 100)
    (by decide)] at h
  simp only [Except.ok.injEq] at h
  norm_num at h

/-- Claim C2 (amended): when `MonteCarloSignificanceTest.test` is run with a
strictly positive increasing returns series, trials that shuffle those same
values, metric `sharpe`, and 200 trials, the resulting p-value equals exactly
1 (not 1/200): in exact arithmetic every shuffle of the series has the same
mean and standard deviation, hence the same Sharpe ratio, and ties count
toward the `>=` bucket. -/
theorem c2_sharpe_trending_pvalue (g : RNG) (rs : List ℝ) (conf : ℝ)
    (hpos : ∀ r ∈ rs, (0 : ℝ) < r) (hinc : rs.Chain' (· < ·)) :
    Except.map TestResult.p_value (MCtest g rs "sharpe" 200 conf) = .ok 1 :=
  mc_sharpe_pvalue_one g rs 200 conf (by decide)

theorem c2_sharpe_trending_pvalue_witness :
    (∀ r ∈ [(1 : ℝ) / 100, 2 / 100, 3 / 100], (0 : ℝ) < r) ∧
    ([(1 : ℝ) / 100, 2 / 100, 3 / 100].Chain' (· < ·)) ∧
    Except.map TestResult.p_value
        (MCtest 7 [(1 : ℝ) / 100, 2 / 100, 3 / 100] "sharpe" 200 (5 / 100)) = .ok 1 :=
  ⟨by norm_num, by norm_num,
    c2_sharpe_trending_pvalue 7 [(1 : ℝ) / 100, 2 / 100, 3 / 100] (5 / 100)
      (by norm_num) (by norm_num)⟩

/-- Claim C3 names a code bug.  The claim (and the repository's own
`ProfitFactorMeasure.calculate`, which returns `float('inf')` in this case)
say a returns series with no losing bars yields an undefined-but-trivially-
favorable profit factor; `MonteCarloSignificanceTest._calculate_metric`
instead returns 0 — the worst possible profit factor.  Evaluating the
embedded code: the all-winning series `[1/100, 1/50]` scores 0, which is
propagated into the result record as `actual_metric`, and ranks strictly
below the series `[1/100, -1/200]` that does contain a loss (profit factor
2). -/
theorem c3_profit_factor_no_losses :
    calcMetricVal [(1 : ℝ) / 100, 1 / 50] "profit_factor" = 0 ∧
    Except.map TestResult.actual_metric
        (MCtest 0 [(1 : ℝ) / 100, 1 / 50] "profit_factor" 3 (5 / 100)) = .ok 0 ∧
    calcMetricVal [(1 : ℝ) / 100, -(1 / 200)] "profit_factor" = 2 := by
  have h1 : calcMetricVal [(1 : ℝ) / 100, 1 / 50] "profit_factor" = 0 := by
    unfold calcMetricVal
    rw [if_neg (by decide), if_pos rfl]
    norm_num [List.filter]
  refine ⟨h1, ?_, ?_⟩
  · rw [mcTest_actual_metric _ _ _ _ _ (by decide), h1]
  · unfold calcMetricVal
    rw [if_neg (by decide), if_pos rfl]
    norm_num [List.filter]
    rw [show |(1 : ℝ) / 200| = 1 / 200 from abs_of_pos (by norm_num)]
    norm_num

/-! ## OHLC bar-permutation engine
(`MonteCarloPermutationTest.get_permutation` in
`framework/performance/monte_carlo_measures.py`).

A market table is the embedding of the DataFrame the code actually operates
on: a time index, the four OHLC price columns bundled per row as a `Bar`, and
whatever extra columns (volume, timestamp, ...) the input carries beyond
those four.  The code reads only `open/high/low/close`; its output is built
by `pl.DataFrame(perm_bars, schema=['open','high','low','close'])`, i.e. a
fresh default row numbering and exactly the four OHLC columns. -/

/-- One OHLC row: `o`/`h`/`l`/`c` are the `open`/`high`/`low`/`close`
prices. -/
structure Bar where
  o : ℝ
  h : ℝ
  l : ℝ
  c : ℝ

instance : Inhabited Bar := ⟨⟨0, 0, 0, 0⟩⟩

/-- A market data table. -/
structure MarketTable where
  index : List ℕ
  bars : List Bar
  extra : List (String × List ℝ)

instance : Inhabited MarketTable := ⟨⟨[], [], []⟩⟩

/-- The column names of a table, the four OHLC columns first. -/
def columns (t : MarketTable) : List String :=
  ["open", "high", "low", "close"] ++ t.extra.map Prod.fst

/-- All four prices of every bar are strictly positive. -/
def PosTable (t : MarketTable) : Prop :=
  ∀ b ∈ t.bars, 0 < b.o ∧ 0 < b.h ∧ 0 < b.l ∧ 0 < b.c

/-- `np.log` applied to the four price columns of a bar. -/
noncomputable def logBar (b : Bar) : Bar :=
  ⟨Real.log b.o, Real.log b.h, Real.log b.l, Real.log b.c⟩

/-- `np.exp` applied to the four price columns of a bar. -/
noncomputable def expBar (b : Bar) : Bar :=
  ⟨Real.exp b.o, Real.exp b.h, Real.exp b.l, Real.exp b.c⟩

/-- The gap values `log(open[i]) - log(close[i-1])`, walked left to right
starting from a given prior log close (`log_bars['open'] -
log_bars['close'].shift()` on already-logged bars). -/
noncomputable def extractGaps : ℝ → List Bar → List ℝ
  | _, [] => []
  | pc, b :: bs => (b.o - pc) :: extractGaps b.c bs

/-- The gap column of `get_permutation` sliced to the permuted region: for
every bar after `start_index`, log open minus the previous bar's log close
(`r_o[perm_index:]`). -/
noncomputable def gapsOf (t : MarketTable) (si : ℕ) : List ℝ :=
  extractGaps (Real.log (t.bars.getD si default).c) ((t.bars.drop (si + 1)).map logBar)

/-- `r_h[perm_index:]`: log high minus log open for every bar after
`start_index`. -/
noncomputable def highRelsOf (t : MarketTable) (si : ℕ) : List ℝ :=
  (t.bars.drop (si + 1)).map (fun b => Real.log b.h - Real.log b.o)

/-- `r_l[perm_index:]`: log low minus log open for every bar after
`start_index`. -/
noncomputable def lowRelsOf (t : MarketTable) (si : ℕ) : List ℝ :=
  (t.bars.drop (si + 1)).map (fun b => Real.log b.l - Real.log b.o)

/-- `r_c[perm_index:]`: log close minus log open for every bar after
`start_index`. -/
noncomputable def closeRelsOf (t : MarketTable) (si : ℕ) : List ℝ :=
  (t.bars.drop (si + 1)).map (fun b => Real.log b.c - Real.log b.o)

/-- NumPy fancy indexing `v[perm]`: reorder a value array by an index
permutation. -/
def applyPerm {α : Type} [Inhabited α] (p : List ℕ) (v : List α) : List α :=
  p.map (fun i => v.getD i default)

/-- The strict left-to-right reconstruction recurrence of `get_permutation`:
from the prior log close and the shuffled gap/high/low/close relatives, build
each synthetic log-space bar (`perm_bars[i,0] = perm_bars[i-1,3] + ...`). -/
noncomputable def reconAux : ℝ → List ℝ → List ℝ → List ℝ → List ℝ → List Bar
  | _, [], _, _, _ => []
  | pc, o :: os, h :: hs, l :: ls, c :: cs =>
      (⟨pc + o, pc + o + h, pc + o + l, pc + o + c⟩ : Bar) ::
        reconAux (pc + o + c) os hs ls cs
  | _, _ :: _, _, _, _ => []

/-- `log_bars.iloc[start_index]`: the log-space start bar. -/
noncomputable def startBarOf (t : MarketTable) (si : ℕ) : Bar :=
  (t.bars.map logBar).getD si default

/-- The reconstructed log-space bars of the permuted region of one market. -/
noncomputable def reconOf (t : MarketTable) (si : ℕ) (perm1 perm2 : List ℕ) :
    List Bar :=
  reconAux (startBarOf t si).c (applyPerm perm2 (gapsOf t si))
    (applyPerm perm1 (highRelsOf t si)) (applyPerm perm1 (lowRelsOf t si))
    (applyPerm perm1 (closeRelsOf t si))

/-- The per-market body of `get_permutation`: extract the log relatives,
reorder them by the two shared index permutations, keep the pre-`start_index`
log bars and the start bar, run the reconstruction recurrence, and
exponentiate.  The output table is a fresh frame with default row numbering
and only the four OHLC columns. -/
noncomputable def permuteOne (t : MarketTable) (si : ℕ) (perm1 perm2 : List ℕ) :
    MarketTable :=
  let newLog := (t.bars.map logBar).take si ++
    startBarOf t si :: reconOf t si perm1 perm2
  { index := List.range newLog.length
    bars := newLog.map expBar
    extra := [] }

/-- The shared body of `get_permutation` after input dispatch: seed the
global generator, fail with NumPy's `ValueError` if the permutation window
`n_bars - (start_index + 1)` is negative (the `np.empty` allocation), draw
the two index permutations — first intrabar shape, then gaps — and rebuild
every market with the same two shuffles. -/
noncomputable def getPermCore (g0 : RNG) (markets : List MarketTable) (si : ℕ)
    (seed : Option ℕ) : Except PyError (List MarketTable) :=
  let g := npSeedOpt seed g0
  let nBars := (markets.headD default).bars.length
  if nBars < si + 1 then .error (.valueError "negative dimensions are not allowed")
  else
    let permN := nBars - (si + 1)
    let d1 := randPermIdx permN g
    let d2 := randPermIdx permN d1.2
    .ok (markets.map (fun t => permuteOne t si d1.1 d2.1))

/-- `np.all(time_index == mkt.index)`: pandas raises `ValueError` when the
two indexes have different lengths, otherwise compares elementwise. -/
def indexCompare (a b : List ℕ) : Except PyError Bool :=
  if a.length = b.length then .ok (decide (a = b))
  else .error (.valueError "Lengths must match to compare")

/-- The validation loop of `get_permutation` for list input:
`assert np.all(time_index == mkt.index), "Indexes do not match"` for every
market. -/
def checkIndexes (ti : List ℕ) : List MarketTable → Except PyError Unit
  | [] => .ok ()
  | m :: ms =>
      match indexCompare ti m.index with
      | .error e => .error e
      | .ok b => if b then checkIndexes ti ms else .error (.assertionError "Indexes do not match")

/-- `get_permutation` on a list of market tables: take the first table's time
index (`ohlc[0]`, an `IndexError` on an empty list), validate every market
against it, then run the shared body. -/
noncomputable def getPermutationMulti (g : RNG) (markets : List MarketTable)
    (si : ℕ) (seed : Option ℕ) : Except PyError (List MarketTable) :=
  match markets with
  | [] => .error (.indexError "list index out of range")
  | m :: _ =>
      match checkIndexes m.index markets with
      | .error e => .error e
      | .ok _ => getPermCore g markets si seed

/-- `get_permutation` on a single market table: the code wraps the table in a
one-element list, skips the index validation, and unwraps the single
result. -/
noncomputable def getPermutation (g : RNG) (t : MarketTable) (si : ℕ)
    (seed : Option ℕ) : Except PyError MarketTable :=
  Except.map (fun l => l.headD default) (getPermCore g [t] si seed)

/-! ## Lemmas about the permutation engine -/

theorem logBar_expBar (b : Bar) : logBar (expBar b) = b := by
  obtain ⟨bo, bh, bl, bc⟩ := b
  simp [logBar, expBar, Real.log_exp]

theorem expBar_logBar (b : Bar) (h1 : 0 < b.o) (h2 : 0 < b.h) (h3 : 0 < b.l)
    (h4 : 0 < b.c) : expBar (logBar b) = b := by
  obtain ⟨bo, bh, bl, bc⟩ := b
  simp only [logBar, expBar]
  rw [Real.exp_log h1, Real.exp_log h2, Real.exp_log h3, Real.exp_log h4]

theorem getD_map_of_lt {α β : Type} [Inhabited α] [Inhabited β] (f : α → β)
    (l : List α) (i : ℕ) (h : i < l.length) :
    (l.map f).getD i default = f (l.getD i default) := by
  rw [List.getD_eq_getElem?_getD, List.getD_eq_getElem?_getD, List.getElem?_map,
    List.getElem?_eq_getElem h]
  rfl

theorem map_getD_range {α : Type} [Inhabited α] (v : List α) :
    (List.range v.length).map (fun i => v.getD i default) = v := by
  apply List.ext_getElem
  · simp
  · intro i h1 h2
    simp only [List.getElem_map, List.getElem_range]
    rw [List.getD_eq_getElem?_getD, List.getElem?_eq_getElem h2]
    rfl

theorem applyPerm_length {α : Type} [Inhabited α] (p : List ℕ) (v : List α) :
    (applyPerm p v).length = p.length :=
  List.length_map _ _

theorem applyPerm_perm {α : Type} [Inhabited α] {p : List ℕ} (v : List α)
    (hp : p.Perm (List.range v.length)) : (applyPerm p v).Perm v := by
  have h1 := hp.map (fun i => v.getD i default)
  rwa [map_getD_range] at h1

theorem extractGaps_length : ∀ (bs : List Bar) (pc : ℝ),
    (extractGaps pc bs).length = bs.length := by
  intro bs
  induction bs with
  | nil => intro pc; rfl
  | cons b bs ih => intro pc; simp [extractGaps, ih]

theorem gapsOf_length (t : MarketTable) (si : ℕ) :
    (gapsOf t si).length = t.bars.length - (si + 1) := by
  unfold gapsOf
  rw [extractGaps_length, List.length_map, List.length_drop]

theorem highRelsOf_length (t : MarketTable) (si : ℕ) :
    (highRelsOf t si).length = t.bars.length - (si + 1) := by
  unfold highRelsOf
  rw [List.length_map, List.length_drop]

theorem lowRelsOf_length (t : MarketTable) (si : ℕ) :
    (lowRelsOf t si).length = t.bars.length - (si + 1) := by
  unfold lowRelsOf
  rw [List.length_map, List.length_drop]

theorem closeRelsOf_length (t : MarketTable) (si : ℕ) :
    (closeRelsOf t si).length = t.bars.length - (si + 1) := by
  unfold closeRelsOf
  rw [List.length_map, List.length_drop]

/-- Round trip: extracting the gap and intrabar relatives from the
reconstructed bars gives back exactly the relative arrays fed to the
recurrence. -/
theorem reconAux_spec : ∀ (os hs ls cs : List ℝ) (pc : ℝ),
    os.length = hs.length → os.length = ls.length → os.length = cs.length →
    extractGaps pc (reconAux pc os hs ls cs) = os ∧
    (reconAux pc os hs ls cs).map (fun b => b.h - b.o) = hs ∧
    (reconAux pc os hs ls cs).map (fun b => b.l - b.o) = ls ∧
    (reconAux pc os hs ls cs).map (fun b => b.c - b.o) = cs := by
  intro os
  induction os with
  | nil =>
      intro hs ls cs pc e1 e2 e3
      cases hs with
      | nil =>
          cases ls with
          | nil =>
              cases cs with
              | nil => simp [reconAux, extractGaps]
              | cons c cs => simp at e3
          | cons l ls => simp at e2
      | cons h hs => simp at e1
  | cons o os ih =>
      intro hs ls cs pc e1 e2 e3
      cases hs with
      | nil => simp at e1
      | cons h hs =>
          cases ls with
          | nil => simp at e2
          | cons l ls =>
              cases cs with
              | nil => simp at e3
              | cons c cs =>
                  have e1' : os.length = hs.length := by simpa using e1
                  have e2' : os.length = ls.length := by simpa using e2
                  have e3' : os.length = cs.length := by simpa using e3
                  obtain ⟨g1, g2, g3, g4⟩ := ih hs ls cs (pc + o + c) e1' e2' e3'
                  refine ⟨?_, ?_, ?_, ?_⟩ <;>
                    simp [reconAux, extractGaps, g1, g2, g3, g4]

theorem reconAux_length (os hs ls cs : List ℝ) (pc : ℝ)
    (e1 : os.length = hs.length) (e2 : os.length = ls.length)
    (e3 : os.length = cs.length) :
    (reconAux pc os hs ls cs).length = os.length := by
  have h := (reconAux_spec os hs ls cs pc e1 e2 e3).1
  calc (reconAux pc os hs ls cs).length
      = (extractGaps pc (reconAux pc os hs ls cs)).length :=
        (extractGaps_length _ _).symm
    _ = os.length := by rw [h]

theorem permuteOne_bars (t : MarketTable) (si : ℕ) (p1 p2 : List ℕ) :
    (permuteOne t si p1 p2).bars =
      ((t.bars.map logBar).take si).map expBar ++
        expBar (startBarOf t si) :: (reconOf t si p1 p2).map expBar := by
  simp [permuteOne]

theorem permuteOne_extra (t : MarketTable) (si : ℕ) (p1 p2 : List ℕ) :
    (permuteOne t si p1 p2).extra = [] := rfl

/-- The expanded success form of a single-market `get_permutation` call: when
the permutation window is nonnegative, the call succeeds and returns the
reassembled table, with the intrabar-shape shuffle drawn first and the gap
shuffle second from the freshly seeded stream. -/
theorem getPermutation_ok (g : RNG) (t : MarketTable) (si : ℕ)
    (seed : Option ℕ) (h : si + 1 ≤ t.bars.length) :
    getPermutation g t si seed =
      .ok (permuteOne t si
        (randPermIdx (t.bars.length - (si + 1)) (npSeedOpt seed g)).1
        (randPermIdx (t.bars.length - (si + 1))
          (randPermIdx (t.bars.length - (si + 1)) (npSeedOpt seed g)).2).1) := by
  simp only [getPermutation, getPermCore]
  rw [if_neg (by simpa using Nat.not_lt.2 h)]
  rfl

theorem permuteOne_prefix_length (t : MarketTable) (si : ℕ)
    (hsi : si + 1 ≤ t.bars.length) :
    (((t.bars.map logBar).take si).map expBar).length = si := by
  simp only [List.length_map, List.length_take]
  omega

theorem permuteOne_bars_drop (t : MarketTable) (si : ℕ) (p1 p2 : List ℕ)
    (hsi : si + 1 ≤ t.bars.length) :
    (permuteOne t si p1 p2).bars.drop (si + 1) = (reconOf t si p1 p2).map expBar := by
  rw [permuteOne_bars,
    show si + 1 = (((t.bars.map logBar).take si).map expBar).length + 1 from by
      rw [permuteOne_prefix_length t si hsi],
    List.drop_append]
  rfl

theorem permuteOne_bars_getD_si (t : MarketTable) (si : ℕ) (p1 p2 : List ℕ)
    (hsi : si + 1 ≤ t.bars.length) :
    (permuteOne t si p1 p2).bars.getD si default = expBar (startBarOf t si) := by
  rw [permuteOne_bars, List.getD_eq_getElem?_getD,
    List.getElem?_append_right (le_of_eq (permuteOne_prefix_length t si hsi))]
  rw [permuteOne_prefix_length t si hsi, Nat.sub_self]
  simp

/-- The four relative-value arrays extracted from the permuted table are the
shuffled relative-value arrays of the source table. -/
theorem permuteOne_rels (t : MarketTable) (si : ℕ) (p1 p2 : List ℕ)
    (hsi : si + 1 ≤ t.bars.length)
    (h1 : p1.length = t.bars.length - (si + 1))
    (h2 : p2.length = t.bars.length - (si + 1)) :
    gapsOf (permuteOne t si p1 p2) si = applyPerm p2 (gapsOf t si) ∧
    highRelsOf (permuteOne t si p1 p2) si = applyPerm p1 (highRelsOf t si) ∧
    lowRelsOf (permuteOne t si p1 p2) si = applyPerm p1 (lowRelsOf t si) ∧
    closeRelsOf (permuteOne t si p1 p2) si = applyPerm p1 (closeRelsOf t si) := by
  have e1 : (applyPerm p2 (gapsOf t si)).length = (applyPerm p1 (highRelsOf t si)).length := by
    rw [applyPerm_length, applyPerm_length, h1, h2]
  have e2 : (applyPerm p2 (gapsOf t si)).length = (applyPerm p1 (lowRelsOf t si)).length := by
    rw [applyPerm_length, applyPerm_length, h1, h2]
  have e3 : (applyPerm p2 (gapsOf t si)).length = (applyPerm p1 (closeRelsOf t si)).length := by
    rw [applyPerm_length, applyPerm_length, h1, h2]
  obtain ⟨g1, g2, g3, g4⟩ := reconAux_spec (applyPerm p2 (gapsOf t si))
    (applyPerm p1 (highRelsOf t si)) (applyPerm p1 (lowRelsOf t si))
    (applyPerm p1 (closeRelsOf t si)) (startBarOf t si).c e1 e2 e3
  have hdrop := permuteOne_bars_drop t si p1 p2 hsi
  have hsb := permuteOne_bars_getD_si t si p1 p2 hsi
  refine ⟨?_, ?_, ?_, ?_⟩
  · unfold gapsOf
    rw [hdrop, hsb]
    have hcomp : logBar ∘ expBar = id := by
      funext b
      simp [Function.comp, logBar_expBar]
    rw [List.map_map, hcomp, List.map_id]
    have hc : Real.log (expBar (startBarOf t si)).c = (startBarOf t si).c := by
      simp [expBar, Real.log_exp]
    rw [hc]
    exact g1
  · unfold highRelsOf
    rw [hdrop, List.map_map]
    have : (fun b => Real.log b.h - Real.log b.o) ∘ expBar =
        fun b : Bar => b.h - b.o := by
      funext b
      simp [expBar, Real.log_exp]
    rw [this]
    exact g2
  · unfold lowRelsOf
    rw [hdrop, List.map_map]
    have : (fun b => Real.log b.l - Real.log b.o) ∘ expBar =
        fun b : Bar => b.l - b.o := by
      funext b
      simp [expBar, Real.log_exp]
    rw [this]
    exact g3
  · unfold closeRelsOf
    rw [hdrop, List.map_map]
    have : (fun b => Real.log b.c - Real.log b.o) ∘ expBar =
        fun b : Bar => b.c - b.o := by
      funext b
      simp [expBar, Real.log_exp]
    rw [this]
    exact g4

theorem reconOf_length (t : MarketTable) (si : ℕ) (p1 p2 : List ℕ)
    (h1 : p1.length = t.bars.length - (si + 1))
    (h2 : p2.length = t.bars.length - (si + 1)) :
    (reconOf t si p1 p2).length = t.bars.length - (si + 1) := by
  unfold reconOf
  rw [reconAux_length]
  · rw [applyPerm_length, h2]
  · rw [applyPerm_length, applyPerm_length, h1, h2]
  · rw [applyPerm_length, applyPerm_length, h1, h2]
  · rw [applyPerm_length, applyPerm_length, h1, h2]

/-- A small positive three-bar table used by the witnesses. -/
def egTable : MarketTable :=
  ⟨[0, 1, 2], [⟨100, 101, 99, 100⟩, ⟨100, 102, 98, 101⟩, ⟨101, 103, 100, 102⟩], []⟩

theorem posTable_egTable : PosTable egTable := by
  intro b hb
  simp only [egTable, List.mem_cons, List.not_mem_nil, or_false] at hb
  rcases hb with rfl | rfl | rfl <;> norm_num

/-! ## Claims C4 to C8 -/

/-- Claim C4: for every valid OHLC input, `start_index`, and seed, each of
the four multisets of log-space relative values extracted for bars after
`start_index` — gap (open minus prior close), high-relative, low-relative,
and close-relative — is identical before and after permutation by
`get_permutation`: the permutation reorders values, never alters them. -/
theorem c4_value_multisets_preserved (g : RNG) (t : MarketTable) (si : ℕ)
    (seed : Option ℕ) (hpos : PosTable t) (hsi : si + 1 ≤ t.bars.length) :
    ∀ out, getPermutation g t si seed = .ok out →
      ((gapsOf out si : Multiset ℝ) = (gapsOf t si : Multiset ℝ)) ∧
      ((highRelsOf out si : Multiset ℝ) = (highRelsOf t si : Multiset ℝ)) ∧
      ((lowRelsOf out si : Multiset ℝ) = (lowRelsOf t si : Multiset ℝ)) ∧
      ((closeRelsOf out si : Multiset ℝ) = (closeRelsOf t si : Multiset ℝ)) := by
  intro out hout
  rw [getPermutation_ok g t si seed hsi] at hout
  simp only [Except.ok.injEq] at hout
  subst hout
  have h1 : (randPermIdx (t.bars.length - (si + 1)) (npSeedOpt seed g)).1.length =
      t.bars.length - (si + 1) := randPermIdx_length _ _
  have h2 : (randPermIdx (t.bars.length - (si + 1))
      (randPermIdx (t.bars.length - (si + 1)) (npSeedOpt seed g)).2).1.length =
      t.bars.length - (si + 1) := randPermIdx_length _ _
  obtain ⟨e1, e2, e3, e4⟩ := permuteOne_rels t si _ _ hsi h1 h2
  refine ⟨?_, ?_, ?_, ?_⟩ <;> rw [Multiset.coe_eq_coe]
  · rw [e1]
    apply applyPerm_perm
    rw [gapsOf_length]
    exact randPermIdx_perm _ _
  · rw [e2]
    apply applyPerm_perm
    rw [highRelsOf_length]
    exact randPermIdx_perm _ _
  · rw [e3]
    apply applyPerm_perm
    rw [lowRelsOf_length]
    exact randPermIdx_perm _ _
  · rw [e4]
    apply applyPerm_perm
    rw [closeRelsOf_length]
    exact randPermIdx_perm _ _

theorem c4_value_multisets_preserved_witness :
    PosTable egTable ∧ 1 + 1 ≤ egTable.bars.length ∧
    (∀ out, getPermutation 3 egTable 1 (some 42) = .ok out →
      ((gapsOf out 1 : Multiset ℝ) = (gapsOf egTable 1 : Multiset ℝ)) ∧
      ((highRelsOf out 1 : Multiset ℝ) = (highRelsOf egTable 1 : Multiset ℝ)) ∧
      ((lowRelsOf out 1 : Multiset ℝ) = (lowRelsOf egTable 1 : Multiset ℝ)) ∧
      ((closeRelsOf out 1 : Multiset ℝ) = (closeRelsOf egTable 1 : Multiset ℝ))) :=
  ⟨posTable_egTable, by simp [egTable],
    c4_value_multisets_preserved 3 egTable 1 (some 42) posTable_egTable
      (by simp [egTable])⟩

/-- Claim C5: for every valid input table, `start_index`, and seed, and for
every bar index `i < start_index + 1`, the `i`-th bar of the table returned
by `get_permutation` equals the `i`-th bar of the source table exactly (in
the exact-real embedding the log/exp round trip is the identity on positive
prices): the copied prefix and the start bar are unchanged. -/
theorem c5_prefix_invariance (g : RNG) (t : MarketTable) (si : ℕ)
    (seed : Option ℕ) (hpos : PosTable t) (hsi : si + 1 ≤ t.bars.length) :
    ∀ out, getPermutation g t si seed = .ok out →
      ∀ i, i < si + 1 → out.bars[i]? = t.bars[i]? := by
  intro out hout i hi
  rw [getPermutation_ok g t si seed hsi] at hout
  simp only [Except.ok.injEq] at hout
  subst hout
  rw [permuteOne_bars]
  rcases Nat.lt_or_ge i si with hlt | hge
  · have hib : i < t.bars.length := by omega
    rw [List.getElem?_append,
      if_pos (by rw [permuteOne_prefix_length t si hsi]; exact hlt)]
    rw [List.getElem?_map, List.getElem?_take, if_pos hlt, List.getElem?_map,
      List.getElem?_eq_getElem hib]
    obtain ⟨ho, hh, hl, hc⟩ := hpos _ (List.getElem_mem hib)
    simp [expBar_logBar _ ho hh hl hc]
  · have hieq : i = si := by omega
    subst hieq
    have hib : i < t.bars.length := by omega
    rw [List.getElem?_append_right (le_of_eq (permuteOne_prefix_length t i hsi))]
    rw [permuteOne_prefix_length t i hsi, Nat.sub_self, List.getElem?_eq_getElem hib]
    have hsb : startBarOf t i = logBar (t.bars.getD i default) :=
      getD_map_of_lt logBar t.bars i hib
    have hgd : t.bars.getD i default = t.bars[i] := by
      rw [List.getD_eq_getElem?_getD, List.getElem?_eq_getElem hib]
      rfl
    obtain ⟨ho, hh, hl, hc⟩ := hpos _ (List.getElem_mem hib)
    rw [hsb, hgd]
    simp [expBar_logBar _ ho hh hl hc]

theorem c5_prefix_invariance_witness :
    PosTable egTable ∧ 1 + 1 ≤ egTable.bars.length ∧
    (∀ out, getPermutation 5 egTable 1 (some 9) = .ok out →
      ∀ i, i < 1 + 1 → out.bars[i]? = egTable.bars[i]?) :=
  ⟨posTable_egTable, by simp [egTable],
    c5_prefix_invariance 5 egTable 1 (some 9) posTable_egTable (by simp [egTable])⟩

/-- A two-bar table carrying an extra `volume` column. -/
def volTable : MarketTable :=
  ⟨[0, 1], [⟨100, 101, 99, 100⟩, ⟨100, 102, 98, 101⟩], [("volume", [5, 6])]⟩

/-- Claim C6 as frozen is false on the code: the output of `get_permutation`
is rebuilt as `pl.DataFrame(perm_bars, schema=['open','high','low','close'])`,
so an optional `volume` column carried by the input is dropped rather than
carried through, and the output column set differs from the input's. -/
theorem c6_counterexample :
    ∃ out, getPermutation 0 volTable 0 (some 0) = .ok out ∧
      columns out ≠ columns volTable :=
  ⟨_, getPermutation_ok 0 volTable 0 (some 0) (by simp [volTable]), by
    simp [columns, permuteOne_extra, volTable]⟩

/-- Claim C6 (amended): for every valid input, the table returned by
`get_permutation` has the same number of rows as the input table, but its
column set is exactly `open, high, low, close`: optional extra columns such
as volume or timestamp are dropped by the output reassembly. -/
theorem c6_shape (g : RNG) (t : MarketTable) (si : ℕ) (seed : Option ℕ)
    (hsi : si + 1 ≤ t.bars.length) :
    ∀ out, getPermutation g t si seed = .ok out →
      out.bars.length = t.bars.length ∧
      columns out = ["open", "high", "low", "close"] := by
  intro out hout
  rw [getPermutation_ok g t si seed hsi] at hout
  simp only [Except.ok.injEq] at hout
  subst hout
  have h1 : (randPermIdx (t.bars.length - (si + 1)) (npSeedOpt seed g)).1.length =
      t.bars.length - (si + 1) := randPermIdx_length _ _
  have h2 : (randPermIdx (t.bars.length - (si + 1))
      (randPermIdx (t.bars.length - (si + 1)) (npSeedOpt seed g)).2).1.length =
      t.bars.length - (si + 1) := randPermIdx_length _ _
  constructor
  · rw [permuteOne_bars]
    rw [List.length_append, permuteOne_prefix_length t si hsi, List.length_cons,
      List.length_map, reconOf_length t si _ _ h1 h2]
    omega
  · simp [columns, permuteOne_extra]

theorem c6_shape_witness :
    1 + 1 ≤ egTable.bars.length ∧
    (∀ out, getPermutation 2 egTable 1 (some 11) = .ok out →
      out.bars.length = egTable.bars.length ∧
      columns out = ["open", "high", "low", "close"]) :=
  ⟨by simp [egTable], c6_shape 2 egTable 1 (some 11) (by simp [egTable])⟩

/-- Claim C7: for every input table, `start_index`, and fixed integer seed,
two calls to `get_permutation` with the same `(table, start_index, seed)`
produce identical output tables: `np.random.seed(seed)` deterministically
resets the global generator state on entry, so the result does not depend on
the ambient generator state left by earlier calls. -/
theorem c7_determinism (g1 g2 : RNG) (t : MarketTable) (si : ℕ) (s : ℕ) :
    getPermutation g1 t si (some s) = getPermutation g2 t si (some s) := rfl

/-- A table containing a non-positive price. -/
def negTable : MarketTable :=
  ⟨[0, 1], [⟨100, 101, 99, 100⟩, ⟨-5, 102, 98, 101⟩], []⟩

/-- Claim C8 as frozen is false on the code: `get_permutation` performs no
price validation at all (the repository defines no `InvalidRangeError`), so a
call on a table containing a non-positive price succeeds instead of
raising. -/
theorem c8_counterexample :
    ∃ out, getPermutation 0 negTable 0 (some 0) = .ok out :=
  ⟨_, getPermutation_ok 0 negTable 0 (some 0) (by simp [negTable])⟩

/-- Claim C8 (amended): `get_permutation` defines and raises no
`InvalidRangeError`; the only failure of a single-market call is the NumPy
`ValueError` from allocating a negative-width array, which occurs exactly
when `start_index + 1` exceeds the bar count.  Non-positive input prices are
not rejected and do not affect whether the call fails. -/
theorem c8_failure_rule (g : RNG) (t : MarketTable) (si : ℕ) (seed : Option ℕ) :
    getPermutation g t si seed =
        .error (.valueError "negative dimensions are not allowed") ↔
      t.bars.length < si + 1 := by
  constructor
  · intro h
    by_contra hc
    rw [getPermutation_ok g t si seed (Nat.not_lt.1 hc)] at h
    simp at h
  · intro h
    simp only [getPermutation, getPermCore]
    rw [if_pos (by simpa using h)]
    rfl

/-! ## Claims C9 and C10 -/

theorem checkIndexes_ok_of_agree (ti : List ℕ) :
    ∀ ms : List MarketTable, (∀ mkt ∈ ms, mkt.index = ti) →
      checkIndexes ti ms = .ok () := by
  intro ms
  induction ms with
  | nil => intro _; rfl
  | cons m ms ih =>
      intro h
      have hm : m.index = ti := h m (List.mem_cons_self m ms)
      have hcmp : indexCompare ti m.index = .ok true := by
        unfold indexCompare
        rw [if_pos (by rw [hm])]
        simp [hm]
      simp only [checkIndexes, hcmp]
      rw [if_pos trivial]
      exact ih fun mkt hmkt => h mkt (List.mem_cons_of_mem m hmkt)

theorem checkIndexes_error_of_disagree (ti : List ℕ) :
    ∀ ms : List MarketTable, (∃ mkt ∈ ms, mkt.index ≠ ti) →
      ∃ e, checkIndexes ti ms = .error e ∧
        (e = .assertionError "Indexes do not match" ∨
          e = .valueError "Lengths must match to compare") := by
  intro ms
  induction ms with
  | nil => rintro ⟨mkt, hmem, _⟩; simp at hmem
  | cons m ms ih =>
      rintro ⟨mkt, hmem, hne⟩
      by_cases hlen : ti.length = m.index.length
      · by_cases heq : ti = m.index
        · have hcmp : indexCompare ti m.index = .ok true := by
            unfold indexCompare
            rw [if_pos hlen]
            simp [heq]
          simp only [checkIndexes, hcmp]
          rw [if_pos trivial]
          apply ih
          rcases List.mem_cons.1 hmem with rfl | hmem'
          · exact absurd heq.symm hne
          · exact ⟨mkt, hmem', hne⟩
        · have hcmp : indexCompare ti m.index = .ok false := by
            unfold indexCompare
            rw [if_pos hlen]
            simp [heq]
          simp only [checkIndexes, hcmp, Bool.false_eq_true, if_false]
          exact ⟨_, rfl, Or.inl rfl⟩
      · have hcmp : indexCompare ti m.index =
            .error (.valueError "Lengths must match to compare") := by
          unfold indexCompare
          rw [if_neg hlen]
        simp only [checkIndexes, hcmp]
        exact ⟨_, rfl, Or.inr rfl⟩

/-- Two index-mismatched single-bar tables (equal length, different index
values). -/
def idxTableA : MarketTable := ⟨[0, 1], [⟨100, 101, 99, 100⟩, ⟨100, 102, 98, 101⟩], []⟩

def idxTableB : MarketTable := ⟨[0, 2], [⟨100, 101, 99, 100⟩, ⟨100, 102, 98, 101⟩], []⟩

/-- Claim C9 as frozen is false on the code: the repository defines no
`MismatchedMarketsError`; the multi-market index validation is a bare
`assert`, so a list of same-length tables with different index values fails
with an `AssertionError` reading `Indexes do not match`. -/
theorem c9_counterexample :
    getPermutationMulti 0 [idxTableA, idxTableB] 0 (some 0) =
      .error (.assertionError "Indexes do not match") := by
  have hcmpA : indexCompare idxTableA.index idxTableA.index = .ok true := rfl
  have hcmpB : indexCompare idxTableA.index idxTableB.index = .ok false := rfl
  simp only [getPermutationMulti, checkIndexes, hcmpA, hcmpB]
  rfl

/-- Claim C9 (amended): when `get_permutation` is given a list of market
tables whose time indexes disagree, it fails fast — before any permutation
computation proceeds — with an `AssertionError` (`Indexes do not match`) for
same-length indexes with different values, or with the pandas `ValueError`
(`Lengths must match to compare`) raised by the index comparison when the
lengths differ (not with a `MismatchedMarketsError`, which the repository
never defines); when all indexes agree, no such error is raised and the call
proceeds to the permutation body. -/
theorem c9_mismatch_rule (g : RNG) (m : MarketTable) (rest : List MarketTable)
    (si : ℕ) (seed : Option ℕ) :
    ((∀ mkt ∈ m :: rest, mkt.index = m.index) →
      getPermutationMulti g (m :: rest) si seed = getPermCore g (m :: rest) si seed) ∧
    ((∃ mkt ∈ m :: rest, mkt.index ≠ m.index) →
      ∃ e, getPermutationMulti g (m :: rest) si seed = .error e ∧
        (e = .assertionError "Indexes do not match" ∨
          e = .valueError "Lengths must match to compare")) := by
  constructor
  · intro h
    have hok := checkIndexes_ok_of_agree m.index (m :: rest) h
    simp only [getPermutationMulti, hok]
  · intro h
    obtain ⟨e, he, hor⟩ := checkIndexes_error_of_disagree m.index (m :: rest) h
    exact ⟨e, by simp only [getPermutationMulti, he], hor⟩

theorem c9_mismatch_rule_witness :
    ((∀ mkt ∈ [idxTableA], mkt.index = idxTableA.index) ∧
      getPermutationMulti 0 [idxTableA] 0 (some 0) =
        getPermCore 0 [idxTableA] 0 (some 0)) ∧
    ((∃ mkt ∈ [idxTableA, idxTableB], mkt.index ≠ idxTableA.index) ∧
      ∃ e, getPermutationMulti 0 [idxTableA, idxTableB] 0 (some 0) = .error e ∧
        (e = .assertionError "Indexes do not match" ∨
          e = .valueError "Lengths must match to compare")) :=
  ⟨⟨by simp, (c9_mismatch_rule 0 idxTableA [] 0 (some 0)).1 (by simp)⟩,
    ⟨⟨idxTableB, by simp, by decide⟩,
      (c9_mismatch_rule 0 idxTableA [idxTableB] 0 (some 0)).2
        ⟨idxTableB, by simp, by decide⟩⟩⟩

/-- The log close of the final bar of a walk: the prior close when the list
is empty, otherwise the close of the last bar. -/
noncomputable def lastClose : ℝ → List Bar → ℝ
  | pc, [] => pc
  | _, b :: bs => lastClose b.c bs

theorem reconAux_lastClose : ∀ (os hs ls cs : List ℝ) (pc : ℝ),
    os.length = hs.length → os.length = ls.length → os.length = cs.length →
    lastClose pc (reconAux pc os hs ls cs) = pc + os.sum + cs.sum := by
  intro os
  induction os with
  | nil =>
      intro hs ls cs pc e1 e2 e3
      cases hs with
      | nil =>
          cases ls with
          | nil =>
              cases cs with
              | nil => simp [reconAux, lastClose]
              | cons c cs => simp at e3
          | cons l ls => simp at e2
      | cons h hs => simp at e1
  | cons o os ih =>
      intro hs ls cs pc e1 e2 e3
      cases hs with
      | nil => simp at e1
      | cons h hs =>
          cases ls with
          | nil => simp at e2
          | cons l ls =>
              cases cs with
              | nil => simp at e3
              | cons c cs =>
                  have e1' : os.length = hs.length := by simpa using e1
                  have e2' : os.length = ls.length := by simpa using e2
                  have e3' : os.length = cs.length := by simpa using e3
                  have := ih hs ls cs (pc + o + c) e1' e2' e3'
                  simp only [reconAux, lastClose, this, List.sum_cons]
                  ring

/-- Telescoping: total gap plus total close-relative equals the overall
log-close change of the walk. -/
theorem extractGaps_telescope : ∀ (bs : List Bar) (pc : ℝ),
    (extractGaps pc bs).sum + (bs.map (fun b => b.c - b.o)).sum =
      lastClose pc bs - pc := by
  intro bs
  induction bs with
  | nil => intro pc; simp [extractGaps, lastClose]
  | cons b bs ih =>
      intro pc
      have := ih b.c
      simp only [extractGaps, lastClose, List.map_cons, List.sum_cons]
      linarith

theorem lastClose_map_exp : ∀ (bs : List Bar) (b : Bar),
    ((bs.map expBar).getLastD (expBar b)).c = Real.exp (lastClose b.c bs) := by
  intro bs
  induction bs with
  | nil => intro b; simp [lastClose, expBar]
  | cons x bs ih =>
      intro b
      simp only [List.map_cons, List.getLastD_cons, lastClose]
      exact ih x

theorem lastClose_map_log : ∀ (bs : List Bar) (x : Bar),
    lastClose (Real.log x.c) (bs.map logBar) = Real.log ((bs.getLastD x).c) := by
  intro bs
  induction bs with
  | nil => intro x; simp [lastClose]
  | cons y bs ih =>
      intro x
      simp only [List.map_cons, List.getLastD_cons, lastClose]
      have : (logBar y).c = Real.log y.c := rfl
      rw [this]
      exact ih y

theorem getLastD_append_cons {α : Type} :
    ∀ (A : List α) (b : α) (L : List α) (d : α),
      (A ++ b :: L).getLastD d = L.getLastD b := by
  intro A
  induction A with
  | nil => intro b L d; rw [List.nil_append, List.getLastD_cons]
  | cons a A ih =>
      intro b L d
      rw [List.cons_append, List.getLastD_cons]
      exact ih b L a

theorem getLastD_drop_getD {α : Type} :
    ∀ (l : List α) (n : ℕ) (d e : α), n < l.length →
      (l.drop (n + 1)).getLastD (l.getD n d) = l.getLastD e := by
  intro l
  induction l with
  | nil => intro n d e h; simp at h
  | cons x xs ih =>
      intro n d e h
      cases n with
      | zero =>
          rw [List.drop_succ_cons, List.drop_zero, List.getD_cons_zero,
            List.getLastD_cons]
      | succ n =>
          have h' : n < xs.length := by simpa using h
          rw [List.drop_succ_cons, List.getD_cons_succ, List.getLastD_cons]
          exact ih n d x h'

/-- Claim C10: for every valid single-market input with positive prices, the
close of the last bar of the table returned by `get_permutation` equals the
close of the last bar of the input table (in exact log-space arithmetic):
the gap and close-relative values telescope to the overall log-close change,
which is invariant under any reordering. -/
theorem c10_last_close_preserved (g : RNG) (t : MarketTable) (si : ℕ)
    (seed : Option ℕ) (hpos : PosTable t) (hsi : si + 1 ≤ t.bars.length) :
    ∀ out, getPermutation g t si seed = .ok out →
      (out.bars.getLastD default).c = (t.bars.getLastD default).c := by
  intro out hout
  rw [getPermutation_ok g t si seed hsi] at hout
  simp only [Except.ok.injEq] at hout
  subst hout
  have h1 : (randPermIdx (t.bars.length - (si + 1)) (npSeedOpt seed g)).1.length =
      t.bars.length - (si + 1) := randPermIdx_length _ _
  have h2 : (randPermIdx (t.bars.length - (si + 1))
      (randPermIdx (t.bars.length - (si + 1)) (npSeedOpt seed g)).2).1.length =
      t.bars.length - (si + 1) := randPermIdx_length _ _
  set p1 := (randPermIdx (t.bars.length - (si + 1)) (npSeedOpt seed g)).1 with hp1
  set p2 := (randPermIdx (t.bars.length - (si + 1))
    (randPermIdx (t.bars.length - (si + 1)) (npSeedOpt seed g)).2).1 with hp2
  have hsilt : si < t.bars.length := by omega
  -- the last output bar sits in the reconstructed suffix
  rw [permuteOne_bars, getLastD_append_cons]
  rw [lastClose_map_exp (reconOf t si p1 p2) (startBarOf t si)]
  -- the reconstruction's final log close
  have e1 : (applyPerm p2 (gapsOf t si)).length =
      (applyPerm p1 (highRelsOf t si)).length := by
    rw [applyPerm_length, applyPerm_length, h1, h2]
  have e2 : (applyPerm p2 (gapsOf t si)).length =
      (applyPerm p1 (lowRelsOf t si)).length := by
    rw [applyPerm_length, applyPerm_length, h1, h2]
  have e3 : (applyPerm p2 (gapsOf t si)).length =
      (applyPerm p1 (closeRelsOf t si)).length := by
    rw [applyPerm_length, applyPerm_length, h1, h2]
  have hlc : lastClose (startBarOf t si).c (reconOf t si p1 p2) =
      (startBarOf t si).c + (applyPerm p2 (gapsOf t si)).sum +
        (applyPerm p1 (closeRelsOf t si)).sum := by
    unfold reconOf
    exact reconAux_lastClose _ _ _ _ _ e1 e2 e3
  have hsum2 : (applyPerm p2 (gapsOf t si)).sum = (gapsOf t si).sum := by
    refine (applyPerm_perm _ ?_).sum_eq
    rw [gapsOf_length]
    exact randPermIdx_perm _ _
  have hsum1 : (applyPerm p1 (closeRelsOf t si)).sum = (closeRelsOf t si).sum := by
    refine (applyPerm_perm _ ?_).sum_eq
    rw [closeRelsOf_length]
    exact randPermIdx_perm _ _
  -- the source-side telescope
  have hsb : startBarOf t si = logBar (t.bars.getD si default) :=
    getD_map_of_lt logBar t.bars si hsilt
  have hsbc : (startBarOf t si).c = Real.log (t.bars.getD si default).c := by
    rw [hsb]; rfl
  have hclose : closeRelsOf t si =
      ((t.bars.drop (si + 1)).map logBar).map (fun b => b.c - b.o) := by
    unfold closeRelsOf
    rw [List.map_map]
    rfl
  have htel := extractGaps_telescope ((t.bars.drop (si + 1)).map logBar)
    (Real.log (t.bars.getD si default).c)
  have hgap : gapsOf t si =
      extractGaps (Real.log (t.bars.getD si default).c)
        ((t.bars.drop (si + 1)).map logBar) := rfl
  have hlog := lastClose_map_log (t.bars.drop (si + 1)) (t.bars.getD si default)
  have hdropLast : (t.bars.drop (si + 1)).getLastD (t.bars.getD si default) =
      t.bars.getLastD default := getLastD_drop_getD t.bars si default default hsilt
  -- assemble
  rw [hlc, hsum2, hsum1, hsbc, hgap, hclose]
  have : Real.log (t.bars.getD si default).c +
      (extractGaps (Real.log (t.bars.getD si default).c)
        ((t.bars.drop (si + 1)).map logBar)).sum +
      (((t.bars.drop (si + 1)).map logBar).map (fun b => b.c - b.o)).sum =
      lastClose (Real.log (t.bars.getD si default).c)
        ((t.bars.drop (si + 1)).map logBar) := by
    linarith [htel]
  rw [this, hlog, hdropLast]
  -- exp of log of the (positive) final close
  have hmem : t.bars.getLastD default ∈ t.bars := by
    cases hbars : t.bars with
    | nil => rw [hbars] at hsilt; simp at hsilt
    | cons b bs =>
        rw [List.getLastD_cons]
        exact List.getLastD_mem_cons bs b
  obtain ⟨_, _, _, hc⟩ := hpos _ hmem
  exact Real.exp_log hc

theorem c10_last_close_preserved_witness :
    PosTable egTable ∧ 1 + 1 ≤ egTable.bars.length ∧
    (∀ out, getPermutation 4 egTable 1 (some 5) = .ok out →
      (out.bars.getLastD default).c = (egTable.bars.getLastD default).c) :=
  ⟨posTable_egTable, by simp [egTable],
    c10_last_close_preserved 4 egTable 1 (some 5) posTable_egTable
      (by simp [egTable])⟩

end TSF
